import Mathlib

/-!
Verification of the PSRNN repository snippets:
* `src/Code/Residual_Connection.ipynb` — `ResidualCell`, a residual wrapper
  around a recurrent cell, with a single-step `hybrid_forward` and a
  sequence `unroll` supporting merged / list output conventions and
  valid-length masking.
* `src/Code/Projection_Layer.ipynb` — `ArgProj` (per-argument dense
  projections followed by a domain map) and `DistributionOutput`
  (distribution factory with optional affine loc/scale wrapping).

Tensors are embedded shallowly: a feature vector is a `List Int`, a
batched per-timestep tensor is a `List` of feature vectors (batch-major),
and a sequence is a time-major `List` of batched tensors.  The merged
(single stacked tensor) versus list-of-tensors output conventions of the
recurrent API are represented by an explicitly tagged type `SeqData`,
whose tag plays the role of the Python runtime type test
`isinstance(outputs, tensor_types)`.
-/

/-- A feature vector (one batch element at one timestep). -/
abbrev Vec := List Int

/-- A batched tensor at one timestep: batch-major list of feature vectors. -/
abbrev Mat := List Vec

/-- A sequence of batched tensors, tagged with the convention it is in:
`merged` models a single stacked tensor (time axis included, represented
time-major), `steps` models a Python list of per-timestep tensors. -/
inductive SeqData where
  | merged (d : List Mat)
  | steps (d : List Mat)
deriving DecidableEq, Repr

/-- The underlying time-major data of a sequence, whichever convention. -/
def SeqData.data : SeqData → List Mat
  | .merged d => d
  | .steps d => d

/-- Whether the sequence is in the merged (single stacked tensor)
convention; models the Python test `isinstance(outputs, tensor_types)`. -/
def SeqData.isMerged : SeqData → Bool
  | .merged _ => true
  | .steps _ => false

/-- `F.elemwise_add` on feature vectors. -/
def elemwise_add (a b : Vec) : Vec :=
  List.zipWith (fun x y => x + y) a b

/-- `F.elemwise_add` on batched per-timestep tensors. -/
def elemwise_add_mat (a b : Mat) : Mat :=
  List.zipWith elemwise_add a b

/-- The wrapped recurrent cell.  `step` is its single-step call
`(inputs, states) -> (output, states)`.  `unrollFn` is its `unroll`
method; its first argument is the value of the cell's `_modified` flag at
the moment of the call, so that theorems can speak about the flag the
inner unroll observes.  `modified` is the `_modified` attribute itself. -/
structure BaseCell (σ : Type) where
  step : Mat → σ → Mat × σ
  unrollFn : Bool → Nat → SeqData → Option σ → String → Option Bool →
      Option (List Nat) → SeqData × σ
  modified : Bool

/-- `ResidualCell(base_cell)`: holds the wrapped cell. -/
structure ResidualCell (σ : Type) where
  base_cell : BaseCell σ

/-- `ResidualCell.hybrid_forward`: call the base cell, add the input to
its output elementwise, pass the new states through. -/
def ResidualCell.hybrid_forward (cell : ResidualCell σ) (inputs : Mat)
    (states : σ) : Mat × σ :=
  let r := cell.base_cell.step inputs states
  (elemwise_add_mat r.1 inputs, r.2)

/-- Modelled from the spec: MXNet `_format_sequence` (not part of this
repository) normalizes a sequence into the requested merge convention and
layout.  Data is kept time-major internally, so only the convention tag
changes; the layout string is accepted and ignored at this level. -/
def formatSequence (_length : Nat) (inputs : SeqData) (_layout : String)
    (merge : Bool) : SeqData :=
  if merge then .merged inputs.data else .steps inputs.data

/-- Mask one batched timestep tensor at time `t`: batch element `b` keeps
its vector when `t` is before its valid length, otherwise it is zeroed. -/
def maskStepMat (vl : List Nat) (t : Nat) (m : Mat) : Mat :=
  List.zipWith (fun v L => if t < L then v else v.map (fun _ => (0 : Int))) m vl

/-- Modelled from the spec: MXNet `_mask_sequence_variable_length` (not
part of this repository) zeroes the positions of a sequence beyond each
batch element's valid length, per sequence and per timestep. -/
def maskSequenceVariableLength (inputs : SeqData) (_length : Nat)
    (valid_length : List Nat) : SeqData :=
  match inputs with
  | .merged d => .merged (d.enum.map (fun p => maskStepMat valid_length p.1 p.2))
  | .steps d => .steps (d.enum.map (fun p => maskStepMat valid_length p.1 p.2))

/-- The additive merge at the end of `ResidualCell.unroll`: whole-tensor
addition in the merged branch, a `zip`-based per-step list comprehension
in the list branch (Python `zip` truncates to the shorter list, and so
does `List.zipWith`). -/
def combineOutputs (merge : Bool) (outputs inputs : SeqData) : SeqData :=
  if merge then .merged (List.zipWith elemwise_add_mat outputs.data inputs.data)
  else .steps (List.zipWith elemwise_add_mat outputs.data inputs.data)

/-- `ResidualCell.unroll`: clear the base cell's `_modified` flag, unroll
the base cell (the flag value at the call is passed to `unrollFn`), set
the flag back to `true`, infer the merge convention from the output type
when `merge_outputs` is `None`, normalize the inputs into that
convention, mask them when a valid length is given, and add them to the
outputs.  The returned triple carries the combined outputs, the states,
and the wrapper with its mutated base cell.  (`self.reset()` only clears
step counters, which have no bearing on the data flow and are not
modelled.) -/
def ResidualCell.unroll (cell : ResidualCell σ) (length : Nat)
    (inputs : SeqData) (begin_state : Option σ) (layout : String)
    (merge_outputs : Option Bool) (valid_length : Option (List Nat)) :
    SeqData × σ × ResidualCell σ :=
  let base1 : BaseCell σ := { cell.base_cell with modified := false }
  let r := base1.unrollFn base1.modified length inputs begin_state layout
      merge_outputs valid_length
  let outputs := r.1
  let states := r.2
  let base2 : BaseCell σ := { base1 with modified := true }
  let merge := match merge_outputs with
    | none => outputs.isMerged
    | some b => b
  let inputs2 := formatSequence length inputs layout merge
  let inputs3 := match valid_length with
    | none => inputs2
    | some vl => maskSequenceVariableLength inputs2 length vl
  (combineOutputs merge outputs inputs3, states, { cell with base_cell := base2 })

/-- The inner cell used by the spec's single-step test: output equals the
input and state is unchanged (its unroll echoes the inputs back). -/
def identityCell (σ : Type) [Inhabited σ] : BaseCell σ :=
  { step := fun x s => (x, s)
    unrollFn := fun _ _ inputs bs _ _ _ => (inputs, bs.getD default)
    modified := true }

/-- Dot product of two feature vectors. -/
def dot (xs ws : List Int) : Int :=
  (List.zipWith (fun a b => a * b) xs ws).sum

/-- A dense affine layer with `units` output features. -/
structure DenseLayer where
  units : Nat
  weight : Mat
  bias : Vec

/-- Modelled from the spec: `gluon.nn.Dense(dim, flatten=False)` (not
part of this repository) applies one affine transform along the last
axis, independently for each leading-dimension row, always producing
`units` output features per row. -/
def DenseLayer.forward (d : DenseLayer) (x : Mat) : Mat :=
  x.map (fun row =>
    (List.range d.units).map (fun i => dot row (d.weight.getD i []) + d.bias.getD i 0))

/-- `ArgProj`: the per-argument dense projections (one per entry of
`args_dim`, in order) and the domain map applied to their outputs. -/
structure ArgProj where
  args_dim : List (String × Nat)
  proj : List DenseLayer
  domain_map : List Mat → List Mat

/-- `ArgProj.__init__`: build one dense layer per named argument, in the
configured order, each with its own parameters; `weights i` and
`biases i` stand for the independently initialized parameters of the
`i`-th layer. -/
def ArgProj.init (args_dim : List (String × Nat)) (domain_map : List Mat → List Mat)
    (weights : Nat → Mat) (biases : Nat → Vec) : ArgProj :=
  { args_dim := args_dim
    proj := args_dim.enum.map (fun p =>
      { units := p.2.2, weight := weights p.1, bias := biases p.1 })
    domain_map := domain_map }

/-- `ArgProj.hybrid_forward`: apply every projection to `x` and return
the domain map of the resulting list, unchanged. -/
def ArgProj.hybrid_forward (ap : ArgProj) (x : Mat) : List Mat :=
  ap.domain_map (ap.proj.map (fun d => d.forward x))

/-- Result of a Python call that may raise `NotImplementedError`. -/
inductive PyResult (α : Type) where
  | ok (a : α)
  | notImplementedError
deriving DecidableEq, Repr

/-- The object returned by `DistributionOutput.distribution`: either the
raw base distribution `distr_cls(*distr_args)`, or that distribution
wrapped in `AffineTransformedDistribution` with the given loc/scale. -/
inductive DistrResult (α : Type) where
  | raw (d : α)
  | affineTransformed (d : α) (loc scale : Option Int)
deriving DecidableEq, Repr

/-- Modelled from the spec: `AffineTransformedDistribution` (not part of
this repository) transforms the samples of its base distribution by
`value -> value * scale + loc`, an unset loc acting as 0 and an unset
scale as 1; the raw distribution applies no transform.  Tensors are
modelled per element, so the transform acts on a single value. -/
def DistrResult.valueTransform : DistrResult α → Int → Int
  | .raw _, v => v
  | .affineTransformed _ loc scale, v => v * scale.getD 1 + loc.getD 0

/-- `DistributionOutput` (together with its base class `Output`):
`distr_cls` is the constructor of the associated distribution type.  The
abstract base defines `event_shape` and `domain_map` to raise
`NotImplementedError`; a concrete subclass overrides them, which is
modelled by the optional override fields (`none` = no override, the
base's raising definition applies). -/
structure DistributionOutput (τ α : Type) where
  distr_cls : List τ → α
  event_shape_override : Option (List Nat)
  domain_map_override : Option (List Mat → List Mat)

/-- `DistributionOutput.distribution`: the raw distribution when both
`loc` and `scale` are `None`, otherwise the affine-wrapped one. -/
def DistributionOutput.distribution (dout : DistributionOutput τ α)
    (distr_args : List τ) (loc scale : Option Int) : DistrResult α :=
  if loc = none ∧ scale = none then .raw (dout.distr_cls distr_args)
  else .affineTransformed (dout.distr_cls distr_args) loc scale

/-- `DistributionOutput.event_shape`: the override when present, else the
abstract base raises `NotImplementedError`. -/
def DistributionOutput.event_shape (dout : DistributionOutput τ α) :
    PyResult (List Nat) :=
  match dout.event_shape_override with
  | some s => .ok s
  | none => .notImplementedError

/-- `DistributionOutput.event_dim`: `len(self.event_shape)`; a raise from
`event_shape` propagates. -/
def DistributionOutput.event_dim (dout : DistributionOutput τ α) : PyResult Nat :=
  match dout.event_shape with
  | .ok s => .ok s.length
  | .notImplementedError => .notImplementedError

/-- `DistributionOutput.domain_map`: the override when present, else the
abstract base raises `NotImplementedError`. -/
def DistributionOutput.domain_map (dout : DistributionOutput τ α)
    (args : List Mat) : PyResult (List Mat) :=
  match dout.domain_map_override with
  | some f => .ok (f args)
  | none => .notImplementedError

/-- A concrete echo cell over `Nat` states, used to instantiate the
universally quantified theorems at concrete inputs: its unroll returns
the input sequence unchanged with state 0, its step echoes the input. -/
def demoCell : BaseCell Nat :=
  { step := fun x s => (x, s)
    unrollFn := fun _ _ inputs _ _ _ _ => (inputs, 0)
    modified := true }

/-- A concrete cell over `Nat` states whose unroll always returns a
fixed three-step output list, regardless of its inputs; used to exhibit
a length mismatch with a shorter input list. -/
def demoCellConst3 : BaseCell Nat :=
  { step := fun x s => (x, s)
    unrollFn := fun _ _ _ _ _ _ _ => (.steps [[[10]], [[20]], [[30]]], 0)
    modified := true }

/-- A concrete distribution output over `Int` argument tensors whose
distribution type is just the argument list, with `event_shape`
overridden to `[2, 3]`. -/
def demoDout : DistributionOutput Int (List Int) :=
  { distr_cls := fun args => args
    event_shape_override := some [2, 3]
    domain_map_override := none }

theorem elemwise_add_zero_map (v w : Vec) (h : w.length = v.length) :
    elemwise_add v (w.map (fun _ => (0 : Int))) = v := by
  induction v generalizing w with
  | nil => simp [elemwise_add]
  | cons a as ih =>
    cases w with
    | nil => simp at h
    | cons b bs =>
      simp only [List.length_cons, Nat.succ.injEq] at h
      simp [elemwise_add, List.zipWith] at ih ⊢
      exact ih bs h

theorem elemwise_add_self (v : Vec) :
    elemwise_add v v = v.map (fun a => 2 * a) := by
  induction v with
  | nil => rfl
  | cons a as ih =>
    simp [elemwise_add, List.zipWith] at ih ⊢
    constructor
    · ring
    · exact ih

theorem data_formatSequence (L : Nat) (s : SeqData) (lay : String) (m : Bool) :
    (formatSequence L s lay m).data = s.data := by
  cases m <;> simp [formatSequence, SeqData.data]

theorem data_maskSequence (s : SeqData) (L : Nat) (vl : List Nat) :
    (maskSequenceVariableLength s L vl).data =
      s.data.enum.map (fun p => maskStepMat vl p.1 p.2) := by
  cases s <;> simp [maskSequenceVariableLength, SeqData.data]

theorem data_combineOutputs (m : Bool) (o i : SeqData) :
    (combineOutputs m o i).data =
      List.zipWith elemwise_add_mat o.data i.data := by
  cases m <;> simp [combineOutputs, SeqData.data]

theorem isMerged_combineOutputs (m : Bool) (o i : SeqData) :
    (combineOutputs m o i).isMerged = m := by
  cases m <;> simp [combineOutputs, SeqData.isMerged]

theorem elemwise_add_mask_at (out inp : Mat) (vl : List Nat) (t b : Nat)
    (hb1 : b < out.length) (hb2 : b < inp.length) (hb3 : b < vl.length)
    (hvl : vl.getD b 0 ≤ t)
    (hlen : (inp.getD b []).length = (out.getD b []).length) :
    (elemwise_add_mat out (maskStepMat vl t inp)).getD b [] = out.getD b [] := by
  have hml : (maskStepMat vl t inp).length = min inp.length vl.length := by
    simp [maskStepMat, List.length_zipWith]
  have hmask : b < (maskStepMat vl t inp).length := by omega
  have hzl : (elemwise_add_mat out (maskStepMat vl t inp)).length =
      min out.length (maskStepMat vl t inp).length := by
    simp [elemwise_add_mat, List.length_zipWith]
  have hzip : b < (elemwise_add_mat out (maskStepMat vl t inp)).length := by omega
  rw [List.getD_eq_getElem _ _ hzip, List.getD_eq_getElem _ _ hb1]
  rw [List.getD_eq_getElem _ _ hb2, List.getD_eq_getElem _ _ hb1] at hlen
  rw [List.getD_eq_getElem _ _ hb3] at hvl
  simp only [elemwise_add_mat, List.getElem_zipWith, maskStepMat]
  have : ¬ t < vl[b] := Nat.not_lt.mpr hvl
  simp only [List.getElem_zipWith, this, if_false]
  exact elemwise_add_zero_map _ _ (by simpa using hlen)

theorem elemwise_add_mat_self (m : Mat) :
    elemwise_add_mat m m = m.map (fun r => r.map (fun a => 2 * a)) := by
  induction m with
  | nil => rfl
  | cons r rs ih =>
    simp [elemwise_add_mat, List.zipWith] at ih ⊢
    exact ⟨elemwise_add_self r, ih⟩

theorem unroll_eq (cell : ResidualCell σ) (length : Nat) (inputs : SeqData)
    (bs : Option σ) (layout : String) (mo : Option Bool)
    (vl : Option (List Nat)) :
    cell.unroll length inputs bs layout mo vl =
      (combineOutputs
          (match mo with
           | none => (cell.base_cell.unrollFn false length inputs bs layout mo vl).1.isMerged
           | some b => b)
          (cell.base_cell.unrollFn false length inputs bs layout mo vl).1
          (match vl with
           | none => formatSequence length inputs layout
               (match mo with
                | none => (cell.base_cell.unrollFn false length inputs bs layout mo vl).1.isMerged
                | some b => b)
           | some v => maskSequenceVariableLength
               (formatSequence length inputs layout
                 (match mo with
                  | none => (cell.base_cell.unrollFn false length inputs bs layout mo vl).1.isMerged
                  | some b => b)) length v),
        (cell.base_cell.unrollFn false length inputs bs layout mo vl).2,
        { cell with base_cell := { cell.base_cell with modified := true } }) := rfl

/-- C4: a single-step invocation of the residual cell calls the inner
cell on `(inputs, states)`, returns the inner output plus the inputs
elementwise, and passes the inner cell's new state through unmodified;
in particular, wrapping the identity-output cell gives `(2*x, s)` on
`(x, s)`. -/
theorem residual_step_adds_input (σ : Type) [Inhabited σ]
    (cell : ResidualCell σ) (x : Mat) (s : σ) :
    cell.hybrid_forward x s =
      (elemwise_add_mat (cell.base_cell.step x s).1 x,
       (cell.base_cell.step x s).2) ∧
    (ResidualCell.mk (identityCell σ)).hybrid_forward x s =
      (x.map (fun r => r.map (fun a => 2 * a)), s) := by
  refine ⟨rfl, ?_⟩
  show (elemwise_add_mat x x, s) = _
  rw [elemwise_add_mat_self]

/-- C2: `DistributionOutput.distribution` returns the raw distribution
`distr_cls(*distr_args)` with no transform wrapping when both `loc` and
`scale` are `None`; otherwise it returns that distribution wrapped in an
affine-transformed distribution whose value transform is
`value * scale + loc` (unset loc acting as 0, unset scale as 1). -/
theorem distribution_loc_scale_spec (τ α : Type)
    (dout : DistributionOutput τ α) (args : List τ) (loc scale : Option Int) :
    (loc = none ∧ scale = none →
      dout.distribution args loc scale = .raw (dout.distr_cls args)) ∧
    (¬(loc = none ∧ scale = none) →
      dout.distribution args loc scale =
          .affineTransformed (dout.distr_cls args) loc scale ∧
      ∀ v : Int, (dout.distribution args loc scale).valueTransform v =
          v * scale.getD 1 + loc.getD 0) := by
  constructor
  · intro h
    simp [DistributionOutput.distribution, h.1, h.2]
  · intro h
    have : dout.distribution args loc scale =
        .affineTransformed (dout.distr_cls args) loc scale := by
      simp [DistributionOutput.distribution, h]
    exact ⟨this, fun v => by rw [this]; rfl⟩

/-- C2 witness: at `loc = some 5`, `scale = none`, the distribution is
affine-wrapped and transforms 7 to 7 * 1 + 5. -/
theorem distribution_loc_scale_spec_witness :
    ¬((some (5 : Int) : Option Int) = none ∧ (none : Option Int) = none) ∧
    (demoDout.distribution [4] (some 5) none =
        .affineTransformed [4] (some 5) none ∧
      ∀ v : Int, (demoDout.distribution [4] (some 5) none).valueTransform v =
        v * (none : Option Int).getD 1 + (some (5 : Int)).getD 0) := by
  refine ⟨by simp, ?_⟩
  exact (distribution_loc_scale_spec Int (List Int) demoDout [4] (some 5) none).2
    (by simp)

/-- C7: `event_dim` of every concrete distribution-output configuration
(one whose `event_shape` is implemented and yields `s`) equals the length
of `s`; it is computed from `event_shape`, never stored separately. -/
theorem event_dim_is_len_event_shape (τ α : Type)
    (dout : DistributionOutput τ α) (s : List Nat)
    (h : dout.event_shape = .ok s) :
    dout.event_dim = .ok s.length := by
  simp [DistributionOutput.event_dim, h]

/-- C7 witness: the demo output has `event_shape = [2, 3]` and
`event_dim = 2`. -/
theorem event_dim_is_len_event_shape_witness :
    demoDout.event_shape = .ok [2, 3] ∧ demoDout.event_dim = .ok 2 := by
  exact ⟨rfl, event_dim_is_len_event_shape Int (List Int) demoDout [2, 3] rfl⟩

/-- C8: on the abstract base class (no overrides), reading `event_shape`
or calling `domain_map` signals `NotImplementedError` instead of
returning a default value. -/
theorem abstract_base_not_implemented (τ α : Type) (ctor : List τ → α)
    (args : List Mat) :
    (DistributionOutput.mk ctor none none).event_shape =
        (.notImplementedError : PyResult (List Nat)) ∧
    (DistributionOutput.mk ctor none none).domain_map args =
        .notImplementedError := by
  exact ⟨rfl, rfl⟩

/-- C5: during `unroll` the inner cell's `_modified` flag is cleared for
the delegated inner unroll — the result depends on the inner unroll only
through its behavior with the flag disabled — and the flag is set back to
`true` on the (only) path by which `unroll` returns. -/
theorem unroll_toggles_modified_flag (σ : Type) (cell cell2 : ResidualCell σ)
    (length : Nat) (inputs : SeqData) (bs : Option σ) (layout : String)
    (mo : Option Bool) (vl : Option (List Nat))
    (h : cell2.base_cell.unrollFn false = cell.base_cell.unrollFn false) :
    ((cell.unroll length inputs bs layout mo vl).2.2).base_cell.modified = true ∧
    (cell2.unroll length inputs bs layout mo vl).1 =
      (cell.unroll length inputs bs layout mo vl).1 ∧
    (cell2.unroll length inputs bs layout mo vl).2.1 =
      (cell.unroll length inputs bs layout mo vl).2.1 := by
  refine ⟨?_, ?_, ?_⟩ <;> simp [unroll_eq, h]

/-- C5 witness: instantiated with two copies of the demo cell on a
two-step sequence. -/
theorem unroll_toggles_modified_flag_witness :
    (ResidualCell.mk demoCell).base_cell.unrollFn false =
      (ResidualCell.mk demoCell).base_cell.unrollFn false ∧
    (((ResidualCell.mk demoCell).unroll 2 (.merged [[[1]], [[2]]]) none "NTC"
        none none).2.2).base_cell.modified = true := by
  refine ⟨rfl, ?_⟩
  exact (unroll_toggles_modified_flag Nat (ResidualCell.mk demoCell)
    (ResidualCell.mk demoCell) 2 (.merged [[[1]], [[2]]]) none "NTC"
    none none rfl).1

/-- C6: when `merge_outputs` is not given (`none`), the merge convention
is inferred from the runtime type of the inner unroll's outputs (merged
iff they are a single tensor), the inputs are normalized into that same
convention before the additive combine, and the combined outputs carry
that convention. -/
theorem unroll_infers_merge_from_output_type (σ : Type)
    (cell : ResidualCell σ) (length : Nat) (inputs : SeqData)
    (bs : Option σ) (layout : String) (vl : Option (List Nat))
    (innerOut : SeqData) (innerSt : σ)
    (hrun : cell.base_cell.unrollFn false length inputs bs layout none vl
        = (innerOut, innerSt)) :
    (cell.unroll length inputs bs layout none vl).1 =
      combineOutputs innerOut.isMerged innerOut
        (match vl with
         | none => formatSequence length inputs layout innerOut.isMerged
         | some v => maskSequenceVariableLength
             (formatSequence length inputs layout innerOut.isMerged) length v) ∧
    (cell.unroll length inputs bs layout none vl).1.isMerged =
      innerOut.isMerged := by
  have h1 : (cell.unroll length inputs bs layout none vl).1 =
      combineOutputs innerOut.isMerged innerOut
        (match vl with
         | none => formatSequence length inputs layout innerOut.isMerged
         | some v => maskSequenceVariableLength
             (formatSequence length inputs layout innerOut.isMerged) length v) := by
    cases vl with
    | none => simp [unroll_eq, hrun]
    | some v => simp [unroll_eq, hrun]
  exact ⟨h1, by rw [h1, isMerged_combineOutputs]⟩

/-- C6 witness: the demo cell echoes a merged two-step sequence, so the
convention is inferred as merged and the combined output is merged. -/
theorem unroll_infers_merge_from_output_type_witness :
    (ResidualCell.mk demoCell).base_cell.unrollFn false 2
        (.merged [[[1]], [[2]]]) none "NTC" none none =
      (.merged [[[1]], [[2]]], 0) ∧
    ((ResidualCell.mk demoCell).unroll 2 (.merged [[[1]], [[2]]]) none "NTC"
        none none).1.isMerged = (SeqData.merged [[[1]], [[2]]]).isMerged := by
  refine ⟨rfl, ?_⟩
  exact (unroll_infers_merge_from_output_type Nat (ResidualCell.mk demoCell) 2
    (.merged [[[1]], [[2]]]) none "NTC" none (.merged [[[1]], [[2]]]) 0 rfl).2

/-- C9: when the inner unroll returns an empty output sequence, or the
input sequence is empty (as with `length == 0`), `unroll` returns the
empty combined output and passes the inner states through — a no-op pass
of empty structures (the embedding is total, so no exception arises). -/
theorem unroll_empty_is_noop (σ : Type) (cell : ResidualCell σ)
    (length : Nat) (inputs : SeqData) (bs : Option σ) (layout : String)
    (mo : Option Bool) (vl : Option (List Nat))
    (innerOut : SeqData) (innerSt : σ)
    (hrun : cell.base_cell.unrollFn false length inputs bs layout mo vl
        = (innerOut, innerSt))
    (hempty : innerOut.data = [] ∨ inputs.data = []) :
    (cell.unroll length inputs bs layout mo vl).1.data = [] ∧
    (cell.unroll length inputs bs layout mo vl).2.1 = innerSt := by
  cases vl with
  | none =>
    refine ⟨?_, by simp [unroll_eq, hrun]⟩
    simp only [unroll_eq, hrun, data_combineOutputs]
    rcases hempty with h | h
    · simp [h]
    · simp [data_formatSequence, h]
  | some v =>
    refine ⟨?_, by simp [unroll_eq, hrun]⟩
    simp only [unroll_eq, hrun, data_combineOutputs]
    rcases hempty with h | h
    · simp [h]
    · simp [data_maskSequence, data_formatSequence, h]

/-- C9 witness: the demo cell unrolled on the empty merged sequence with
`length = 0` yields empty outputs and state 0. -/
theorem unroll_empty_is_noop_witness :
    (ResidualCell.mk demoCell).base_cell.unrollFn false 0 (.merged []) none
        "NTC" none none = (.merged [], 0) ∧
    ((SeqData.merged []).data = [] ∨ (SeqData.merged []).data = []) ∧
    ((ResidualCell.mk demoCell).unroll 0 (.merged []) none "NTC" none
        none).1.data = [] ∧
    ((ResidualCell.mk demoCell).unroll 0 (.merged []) none "NTC" none
        none).2.1 = 0 := by
  refine ⟨rfl, Or.inl rfl, ?_⟩
  exact unroll_empty_is_noop Nat (ResidualCell.mk demoCell) 0 (.merged [])
    none "NTC" none none (.merged []) 0 rfl (Or.inl rfl)

/-- C10: in the list-of-tensors convention (`merge_outputs = False`), the
combined output list has length `min` of the inner output-list length and
the normalized input-list length: a mismatch is silently truncated by the
pairwise `zip`-based combine, not reported. -/
theorem unroll_list_combine_truncates (σ : Type) (cell : ResidualCell σ)
    (length : Nat) (inputs : SeqData) (bs : Option σ) (layout : String)
    (vl : Option (List Nat)) (innerOut : SeqData) (innerSt : σ)
    (hrun : cell.base_cell.unrollFn false length inputs bs layout
        (some false) vl = (innerOut, innerSt)) :
    (cell.unroll length inputs bs layout (some false) vl).1.data.length =
      min innerOut.data.length inputs.data.length ∧
    (cell.unroll length inputs bs layout (some false) vl).1.isMerged =
      false := by
  cases vl with
  | none =>
    constructor
    · simp only [unroll_eq, hrun, data_combineOutputs, List.length_zipWith]
      rw [data_formatSequence]
    · simp [unroll_eq, hrun, isMerged_combineOutputs]
  | some v =>
    constructor
    · simp only [unroll_eq, hrun, data_combineOutputs, List.length_zipWith]
      rw [data_maskSequence, List.length_map, List.enum_length,
        data_formatSequence]
    · simp [unroll_eq, hrun, isMerged_combineOutputs]

/-- C10 witness: a three-step inner output list against a two-step input
list combines to a two-step list, silently. -/
theorem unroll_list_combine_truncates_witness :
    (ResidualCell.mk demoCellConst3).base_cell.unrollFn false 3
        (.steps [[[1]], [[2]]]) none "NTC" (some false) none =
      (.steps [[[10]], [[20]], [[30]]], 0) ∧
    ((ResidualCell.mk demoCellConst3).unroll 3 (.steps [[[1]], [[2]]]) none
        "NTC" (some false) none).1.data.length = 2 := by
  refine ⟨rfl, ?_⟩
  have h := unroll_list_combine_truncates Nat (ResidualCell.mk demoCellConst3)
    3 (.steps [[[1]], [[2]]]) none "NTC" none
    (.steps [[[10]], [[20]], [[30]]]) 0 rfl
  simpa using h.1

/-- The shape of a dense layer's output: one row per input row, each of
width `units`. -/
theorem denseLayer_forward_shape (d : DenseLayer) (x : Mat) :
    (d.forward x).length = x.length ∧
    ∀ r ∈ d.forward x, r.length = d.units := by
  constructor
  · simp [DenseLayer.forward]
  · intro r hr
    simp only [DenseLayer.forward, List.mem_map] at hr
    obtain ⟨row, _, hrow⟩ := hr
    simp [← hrow]

/-- C1: with a valid-length tensor supplied, the input is masked to zero
beyond each sequence's valid length before the additive merge, so at a
padded timestep `t` of batch element `b` (with `t` at or beyond `b`'s
valid length, and matching feature widths) the combined output equals the
inner cell's raw output there. -/
theorem unroll_mask_padded_input_zero (σ : Type) (cell : ResidualCell σ)
    (length : Nat) (inputs : SeqData) (bs : Option σ) (layout : String)
    (mo : Option Bool) (vl : List Nat) (innerOut : SeqData) (innerSt : σ)
    (t b : Nat)
    (hrun : cell.base_cell.unrollFn false length inputs bs layout mo
        (some vl) = (innerOut, innerSt))
    (ht1 : t < innerOut.data.length) (ht2 : t < inputs.data.length)
    (hb1 : b < (innerOut.data.getD t []).length)
    (hb2 : b < (inputs.data.getD t []).length)
    (hb3 : b < vl.length)
    (hvl : vl.getD b 0 ≤ t)
    (hlen : ((inputs.data.getD t []).getD b []).length =
        ((innerOut.data.getD t []).getD b []).length) :
    (((cell.unroll length inputs bs layout mo (some vl)).1.data.getD t
        []).getD b []) = (innerOut.data.getD t []).getD b [] := by
  have hdata : (cell.unroll length inputs bs layout mo (some vl)).1.data =
      List.zipWith elemwise_add_mat innerOut.data
        (inputs.data.enum.map (fun p => maskStepMat vl p.1 p.2)) := by
    simp only [unroll_eq, hrun, data_combineOutputs, data_maskSequence,
      data_formatSequence]
  have hml : (inputs.data.enum.map
      (fun p => maskStepMat vl p.1 p.2)).length = inputs.data.length := by
    simp
  have hz : t < (List.zipWith elemwise_add_mat innerOut.data
      (inputs.data.enum.map (fun p => maskStepMat vl p.1 p.2))).length := by
    rw [List.length_zipWith]
    omega
  rw [hdata, List.getD_eq_getElem _ _ hz, List.getElem_zipWith]
  rw [List.getD_eq_getElem _ _ ht1] at hb1 hlen ⊢
  rw [List.getD_eq_getElem _ _ ht2] at hb2 hlen
  have hmt : t < (inputs.data.enum.map
      (fun p => maskStepMat vl p.1 p.2)).length := by omega
  rw [List.getElem_map, List.getElem_enum]
  exact elemwise_add_mask_at _ _ vl t b hb1 hb2 hb3 hvl hlen

/-- C1 witness: the echo cell on a two-step, one-sequence batch with
valid length 1: at the padded timestep 1 the combined output equals the
inner output `[9, 11]`, the input there contributing zero. -/
theorem unroll_mask_padded_input_zero_witness :
    (ResidualCell.mk demoCell).base_cell.unrollFn false 2
        (.merged [[[5, 7]], [[9, 11]]]) none "NTC" none (some [1]) =
      (.merged [[[5, 7]], [[9, 11]]], 0) ∧
    [1].getD 0 0 ≤ 1 ∧
    ((((ResidualCell.mk demoCell).unroll 2 (.merged [[[5, 7]], [[9, 11]]])
        none "NTC" none (some [1])).1.data.getD 1 []).getD 0 []) =
      [(9 : Int), 11] := by
  refine ⟨rfl, by decide, ?_⟩
  have h := unroll_mask_padded_input_zero Nat (ResidualCell.mk demoCell) 2
    (.merged [[[5, 7]], [[9, 11]]]) none "NTC" none [1]
    (.merged [[[5, 7]], [[9, 11]]]) 0 1 0 rfl (by decide) (by decide)
    (by decide) (by decide) (by decide) (by decide) (by decide)
  exact h.trans (by decide)

/-- C3: with an identity domain map, projecting an input of `B` rows
yields one tensor per named argument (in the configured order), the
`i`-th being exactly the output of the `i`-th independently-parameterized
dense layer: `B` rows, each of the `i`-th configured width. -/
theorem argproj_identity_shapes (args_dim : List (String × Nat))
    (weights : Nat → Mat) (biases : Nat → Vec) (x : Mat) (i : Nat)
    (hi : i < args_dim.length) :
    ((ArgProj.init args_dim (fun ys => ys) weights biases).hybrid_forward
        x).length = args_dim.length ∧
    ((ArgProj.init args_dim (fun ys => ys) weights biases).hybrid_forward
        x).getD i [] =
      DenseLayer.forward
        { units := (args_dim.getD i ("", 0)).2
          weight := weights i
          bias := biases i } x ∧
    (((ArgProj.init args_dim (fun ys => ys) weights biases).hybrid_forward
        x).getD i []).length = x.length ∧
    ∀ r ∈ ((ArgProj.init args_dim (fun ys => ys) weights
        biases).hybrid_forward x).getD i [],
      r.length = (args_dim.getD i ("", 0)).2 := by
  have hfwd : (ArgProj.init args_dim (fun ys => ys) weights
      biases).hybrid_forward x =
      (args_dim.enum.map (fun p =>
        DenseLayer.mk p.2.2 (weights p.1) (biases p.1))).map
        (fun d => d.forward x) := rfl
  have hil : i < ((args_dim.enum.map (fun p =>
      DenseLayer.mk p.2.2 (weights p.1) (biases p.1))).map
      (fun d => d.forward x)).length := by
    simpa using hi
  have hget : ((ArgProj.init args_dim (fun ys => ys) weights
      biases).hybrid_forward x).getD i [] =
      DenseLayer.forward
        { units := (args_dim.getD i ("", 0)).2
          weight := weights i
          bias := biases i } x := by
    rw [hfwd, List.getD_eq_getElem _ _ hil, List.getElem_map,
      List.getElem_map, List.getElem_enum, List.getD_eq_getElem _ _ hi]
  refine ⟨by rw [hfwd]; simp, hget, ?_, ?_⟩
  · rw [hget]
    exact (denseLayer_forward_shape _ x).1
  · rw [hget]
    exact (denseLayer_forward_shape _ x).2

/-- C3 witness: two named arguments of widths 2 and 3 on a three-row
input: two projected tensors, the second having three rows of width 3. -/
theorem argproj_identity_shapes_witness :
    1 < ([("mu", 2), ("sig", 3)] : List (String × Nat)).length ∧
    ((ArgProj.init [("mu", 2), ("sig", 3)] (fun ys => ys) (fun _ => [])
        (fun _ => [])).hybrid_forward [[1], [2], [3]]).length = 2 ∧
    (((ArgProj.init [("mu", 2), ("sig", 3)] (fun ys => ys) (fun _ => [])
        (fun _ => [])).hybrid_forward [[1], [2], [3]]).getD 1 []).length = 3 := by
  have h := argproj_identity_shapes [("mu", 2), ("sig", 3)] (fun _ => [])
    (fun _ => []) [[1], [2], [3]] 1 (by decide)
  exact ⟨by decide, by simpa using h.1, by simpa using h.2.2.1⟩
